import Mathlib

/-!
Shallow embedding of the wildcat HTTP/1.x request-head parser
(src/http.go, package wildcat) and verification of its specification.

Modelling conventions:
- a Go byte is a `Nat` (values 0..255 in any real buffer);
- a Go byte slice is a `GoB`: either the `nil` slice, a `view` into the
  caller's input buffer (recording the bytes it denotes and the half-open
  index range `[lo, hi)` it aliases), or a `fresh`ly allocated buffer
  (the line-folding path is the only allocation site inside `Parse`);
- a Go run-time panic (out-of-range slice index) is `Option.none`;
- the scanning loops of `Parse` recurse structurally on a fuel argument
  that is kept equal to `total - i`, so fuel 0 is exactly the Go loop
  condition `i < total` failing;
- `bytes.EqualFold` is modelled on the ASCII range (HTTP header names are
  ASCII; the Unicode folding of the Go standard library agrees with
  ASCII-case folding there);
- `strconv.ParseInt(s, 10, 0)` is modelled with the 64-bit overflow cutoff
  of a 64-bit platform.
-/

namespace Wildcat

/-- Byte string of an ASCII Lean string literal. -/
def bytes (s : String) : List Nat := s.toList.map Char.toNat

/-- Go slice expression `input[lo:hi]` as a list of bytes. -/
def extract (input : List Nat) (lo hi : Nat) : List Nat :=
  (input.take hi).drop lo

/-- A Go byte slice together with its provenance: the `nil` slice, a view
aliasing the byte range `[lo, hi)` of the caller's input buffer, or a
freshly allocated buffer. -/
inductive GoB where
  | nil : GoB
  | view (data : List Nat) (lo hi : Nat) : GoB
  | fresh (data : List Nat) : GoB
deriving DecidableEq

/-- The bytes a Go slice denotes; the `nil` slice denotes the empty string
(exactly how `bytes.Equal` and `len` treat it). -/
def GoB.data : GoB → List Nat
  | .nil => []
  | .view d _ _ => d
  | .fresh d => d

/-- The slice `input[lo:hi]`, as the view it is in the Go code. -/
def subv (input : List Nat) (lo hi : Nat) : GoB :=
  .view (extract input lo hi) lo hi

/-- Source struct `header`: a (name, value) pair of byte slices. -/
structure header where
  Name : GoB
  Value : GoB
deriving DecidableEq

/-- The zero value of `header` (both slices nil), as produced by
`make([]header, n)` and by the growth copy in `addHeader`. -/
def zeroHeader : header := ⟨GoB.nil, GoB.nil⟩

/-- Source struct `HTTPParser`. Subscription names are kept as byte
strings (they are caller-owned buffers that are only ever compared,
never stored). -/
structure HTTPParser where
  subscribeHeader : List (List Nat)
  subscribeAllHeader : Bool
  Method : GoB
  Path : GoB
  Version : GoB
  Headers : List header
  TotalHeaders : Nat
  host : GoB
  hostRead : Bool
  contentLength : Int
  contentLengthRead : Bool
deriving DecidableEq

def DefaultHeaderSlice : Nat := 4

/-- Source `NewSizedHTTPParser`. -/
def NewSizedHTTPParser (size : Nat) : HTTPParser :=
  { subscribeHeader := []
    subscribeAllHeader := true
    Method := GoB.nil
    Path := GoB.nil
    Version := GoB.nil
    Headers := List.replicate size zeroHeader
    TotalHeaders := size
    host := GoB.nil
    hostRead := false
    contentLength := -1
    contentLengthRead := false }

/-- Source `NewHTTPParser`. -/
def NewHTTPParser : HTTPParser := NewSizedHTTPParser DefaultHeaderSlice

/-- Source `SubscribeAllHeader`. -/
def SubscribeAllHeader (hp : HTTPParser) (sub : Bool) : HTTPParser :=
  { hp with subscribeAllHeader := sub }

/-- Source `SubscribeHeader`. -/
def SubscribeHeader (hp : HTTPParser) (name : List Nat) : HTTPParser :=
  { hp with subscribeHeader := hp.subscribeHeader ++ [name] }

/-- The two error kinds `Parse` can return (`ErrMissingData`,
`ErrBadProto`; `ErrUnsupported` is declared in the source but never
returned). -/
inductive PErr where
  | MissingData : PErr
  | BadProto : PErr
deriving DecidableEq

/-- The eight scanner states of the header state machine (source consts
`eNextHeader` .. `eMLHeaderValue`). -/
inductive HState where
  | eNextHeader
  | eNextHeaderN
  | eHeader
  | eHeaderValueSpace
  | eHeaderValue
  | eHeaderValueN
  | eMLHeaderStart
  | eMLHeaderValue
deriving DecidableEq

def cHost : List Nat := bytes "Host"

def cContentLength : List Nat := bytes "Content-Length"

/-- ASCII lower-casing of one byte. -/
def lowerB (c : Nat) : Nat := if 65 ≤ c ∧ c ≤ 90 then c + 32 else c

/-- Model of `bytes.EqualFold` on ASCII data. -/
def equalFold (a b : List Nat) : Bool :=
  a.map lowerB == b.map lowerB

/-- One base-10 digit byte. -/
def digitVal (c : Nat) : Option Nat :=
  if 48 ≤ c ∧ c ≤ 57 then some (c - 48) else none

/-- Accumulate a digit string; none on the empty string or any non-digit. -/
def digitsToNat : List Nat → Option Nat → Option Nat
  | [], acc => acc
  | c :: rest, acc =>
    match acc, digitVal c with
    | some a, some d => digitsToNat rest (some (a * 10 + d))
    | _, _ => none

/-- Model of `strconv.ParseInt(string(s), 10, 0)` on a 64-bit platform:
optional sign, at least one digit, all digits, 64-bit range. -/
def parseInt10 (s : List Nat) : Option Int :=
  match s with
  | [] => none
  | c :: rest =>
    let p : Bool × List Nat :=
      if c = 43 then (false, rest) else if c = 45 then (true, rest) else (false, s)
    match digitsToNat p.2 (some 0) with
    | none => none
    | some n =>
      if p.2 = [] then none
      else if p.1 then (if n ≤ 2 ^ 63 then some (-(n : Int)) else none)
      else (if n ≤ 2 ^ 63 - 1 then some (n : Int) else none)

/-- Source `addHeader` (src/http.go lines 256-264): write the pair at
`headerIndex`, then grow the table by `DefaultHeaderSlice` when that
index was the last slot according to `TotalHeaders`. Out-of-range write
is a Go panic (`none`). The growth reallocation `make` + `copy` keeps
the first entries and zero-fills the rest. -/
def addHeader (hp : HTTPParser) (headerIndex : Nat) (hName hValue : GoB) :
    Option HTTPParser :=
  if headerIndex < hp.Headers.length then
    let hp1 := { hp with Headers := hp.Headers.set headerIndex ⟨hName, hValue⟩ }
    if headerIndex + 1 = hp1.TotalHeaders then
      some { hp1 with
        Headers := ((hp1.Headers ++
          List.replicate (hp1.TotalHeaders + DefaultHeaderSlice) zeroHeader).take
            (hp1.TotalHeaders + DefaultHeaderSlice))
        TotalHeaders := hp1.TotalHeaders + DefaultHeaderSlice }
    else some hp1
  else none

/-- The subscription scan of `Parse` (src/http.go lines 208-215): first
byte match, then full `bytes.Equal`, adding and breaking on a hit.
Indexing `b[0]` of an empty subscribed name is a Go panic. -/
def subLoop (input : List Nat) (bs : List (List Nat)) (hp : HTTPParser)
    (b0 : Nat) (headerName : GoB) (h start i : Nat) : Option HTTPParser :=
  match bs with
  | [] => some hp
  | b :: rest =>
    match b with
    | [] => none
    | c :: _ =>
      if b0 = c ∧ headerName.data = b then
        addHeader hp h headerName (subv input start i)
      else subLoop input rest hp b0 headerName h start i

/-- The header-completion code of `Parse` (src/http.go lines 198-216,
the body shared by the CR and LF arms of `eHeaderValue`, before `h++`):
an exact `Content-Length` name parses and caches the value inline and is
always added; otherwise the pair is added when `subscribeAllHeader` is
set, or when the subscription scan hits. `headerName[0]` on an empty
name is a Go panic. -/
def completeHeader (input : List Nat) (hp : HTTPParser) (headerName : GoB)
    (h start i : Nat) : Option HTTPParser :=
  if headerName.data = [] then none
  else
    if headerName.data.getD 0 0 = 67 ∧ headerName.data = cContentLength then
      let hp1 :=
        match parseInt10 (extract input start i) with
        | some v => { hp with contentLength := v }
        | none => hp
      addHeader { hp1 with contentLengthRead := true } h headerName
        (subv input start i)
    else if hp.subscribeAllHeader then
      addHeader hp h headerName (subv input start i)
    else
      subLoop input hp.subscribeHeader hp (headerName.data.getD 0 0) headerName
        h start i

/-- The method and path scans of `Parse` (src/http.go lines 81-113):
find the next space or tab, returning its index; running off the end of
the buffer (`fuel = 0`) means `ok` stayed false. -/
def scanSpTab (input : List Nat) : Nat → Nat → Option Nat
  | 0, _ => none
  | f + 1, i =>
    if input.getD i 0 = 32 ∨ input.getD i 0 = 9 then some i
    else scanSpTab input f (i + 1)

/-- Outcome of the version scan: proceed to the header section at the
given offset, or return early from `Parse`. -/
inductive VOut where
  | proceed (hp : HTTPParser) (headers : Nat)
  | ret (hp : HTTPParser) (n : Nat) (e : Option PErr)
deriving DecidableEq

/-- The version scan of `Parse` (src/http.go lines 115-146): accumulate
the version until CR (then require LF) or a bare LF; a CR not followed
by LF is `ErrBadProto`; `hp.Version` is assigned the moment the CR or LF
is seen. -/
def versionLoop (input : List Nat) : Nat → Nat → Nat → Bool → HTTPParser → VOut
  | 0, _, _, _, hp => .ret hp 0 (some .MissingData)
  | f + 1, i, version, readN, hp =>
    let c := input.getD i 0
    match readN with
    | false =>
      if c = 13 then
        versionLoop input f (i + 1) version true
          { hp with Version := subv input version i }
      else if c = 10 then
        .proceed { hp with Version := subv input version i } (i + 1)
      else versionLoop input f (i + 1) version false hp
    | true =>
      if c ≠ 10 then .ret hp 0 (some .BadProto)
      else .proceed hp (i + 1)

/-- The header state machine of `Parse` (src/http.go lines 156-251).
Returns `none` on a Go panic: the fold path indexes `Headers[h-1]`,
which is out of range when `h = 0` or when `h - 1` is past the slice
length, and `completeHeader` can panic through `addHeader`. Running out
of buffer (`fuel = 0`) falls through to `return 0, ErrMissingData`. -/
def headerLoop (input : List Nat) :
    Nat → Nat → HState → Nat → GoB → Nat → HTTPParser →
    Option (HTTPParser × Nat × Option PErr)
  | 0, _, _, _, _, _, hp => some (hp, 0, some .MissingData)
  | f + 1, i, state, start, headerName, h, hp =>
    let c := input.getD i 0
    match state with
    | .eNextHeader =>
      if c = 13 then headerLoop input f (i + 1) .eNextHeaderN start headerName h hp
      else if c = 10 then some (hp, i + 1, none)
      else if c = 32 ∨ c = 9 then
        headerLoop input f (i + 1) .eMLHeaderStart start headerName h hp
      else headerLoop input f (i + 1) .eHeader i headerName h hp
    | .eNextHeaderN =>
      if c ≠ 10 then some (hp, 0, some .BadProto)
      else some (hp, i + 1, none)
    | .eHeader =>
      if c = 58 then
        headerLoop input f (i + 1) .eHeaderValueSpace start (subv input start i) h hp
      else headerLoop input f (i + 1) .eHeader start headerName h hp
    | .eHeaderValueSpace =>
      if c = 32 ∨ c = 9 then
        headerLoop input f (i + 1) .eHeaderValueSpace start headerName h hp
      else headerLoop input f (i + 1) .eHeaderValue i headerName h hp
    | .eHeaderValue =>
      if c = 13 ∨ c = 10 then
        match completeHeader input hp headerName h start i with
        | none => none
        | some hp1 =>
          headerLoop input f (i + 1)
            (if c = 13 then .eHeaderValueN else .eNextHeader) start headerName
            (h + 1) hp1
      else headerLoop input f (i + 1) .eHeaderValue start headerName h hp
    | .eHeaderValueN =>
      if c ≠ 10 then some (hp, 0, some .BadProto)
      else headerLoop input f (i + 1) .eNextHeader start headerName h hp
    | .eMLHeaderStart =>
      if c = 32 ∨ c = 9 then
        headerLoop input f (i + 1) .eMLHeaderStart start headerName h hp
      else headerLoop input f (i + 1) .eMLHeaderValue i headerName h hp
    | .eMLHeaderValue =>
      if c = 13 ∨ c = 10 then
        if h = 0 then none
        else
          if hb : h - 1 < hp.Headers.length then
            let cur := hp.Headers.get ⟨h - 1, hb⟩
            let newv := GoB.fresh (cur.Value.data ++ [32] ++ extract input start i)
            headerLoop input f (i + 1)
              (if c = 13 then .eHeaderValueN else .eNextHeader) start headerName h
              { hp with Headers := hp.Headers.set (h - 1) { cur with Value := newv } }
          else none
      else headerLoop input f (i + 1) .eMLHeaderValue start headerName h hp

/-- Source `Parse` (src/http.go lines 74-254): method scan, path scan,
version scan, then the header state machine. The result is `none` on a
Go panic, otherwise the final parser state, the returned offset, and
the returned error (if any). -/
def parseGo (hp : HTTPParser) (input : List Nat) :
    Option (HTTPParser × Nat × Option PErr) :=
  let total := input.length
  match scanSpTab input total 0 with
  | none => some (hp, 0, some .MissingData)
  | some m =>
    let hp1 := { hp with Method := subv input 0 m }
    match scanSpTab input (total - (m + 1)) (m + 1) with
    | none => some (hp1, 0, some .MissingData)
    | some p =>
      let hp2 := { hp1 with Path := subv input (m + 1) p }
      match versionLoop input (total - (p + 1)) (p + 1) (p + 1) false hp2 with
      | .ret hp3 n e => some (hp3, n, e)
      | .proceed hp3 headers =>
        headerLoop input (total - headers) headers .eNextHeader headers GoB.nil 0 hp3

/-- Source `Reset` (src/http.go lines 266-277). The first loop ranges by
value: `h` is a copy of each element, so the two assignments in its body
have no effect on `hp.Headers`; it is transcribed as the no-op it is.
Then the cached derived fields are cleared and the Headers slice is
truncated toward the subscription floor. -/
def Reset (hp : HTTPParser) : HTTPParser :=
  let hp1 := { hp with hostRead := false, contentLengthRead := false, contentLength := -1 }
  if hp1.Headers.length > hp1.subscribeHeader.length + 1 then
    { hp1 with Headers := hp1.Headers.take (hp1.subscribeHeader.length + 1) }
  else hp1

/-- One pass of `FindHeader`: first element satisfying the predicate,
returning its value (which may itself be the nil slice). -/
def findPass (p : header → Bool) : List header → Option GoB
  | [] => none
  | hd :: tl => if p hd then some hd.Value else findPass p tl

/-- Source `FindHeader` (src/http.go lines 288-302): exact byte match
first, then case-insensitive, else the nil slice. -/
def FindHeader (hp : HTTPParser) (name : List Nat) : GoB :=
  match findPass (fun hd => hd.Name.data == name) hp.Headers with
  | some v => v
  | none =>
    match findPass (fun hd => equalFold hd.Name.data name) hp.Headers with
    | some v => v
    | none => GoB.nil

/-- Modelled from the spec (section 4.4): the two-pass lookup contract
stated in the specification, written with `List.find?` — the value of the
first stored header whose name matches byte-exactly, else the value of
the first whose name matches case-insensitively, else not found. Used
only to compare `FindHeader` against the spec's words. -/
def FindHeaderSpec (hp : HTTPParser) (name : List Nat) : GoB :=
  match hp.Headers.find? (fun hd => hd.Name.data == name) with
  | some hd => hd.Value
  | none =>
    match hp.Headers.find? (fun hd => equalFold hd.Name.data name) with
    | some hd => hd.Value
    | none => GoB.nil

/-- Source `Host` (src/http.go lines 320-328), returning the value and
the (possibly cache-updated) parser. -/
def HostM (hp : HTTPParser) : GoB × HTTPParser :=
  if hp.hostRead then (hp.host, hp)
  else
    let v := FindHeader hp cHost
    (v, { hp with hostRead := true, host := v })

/-- Source `ContentLength` (src/http.go lines 334-349), returning the
value and the (possibly cache-updated) parser. -/
def ContentLengthM (hp : HTTPParser) : Int × HTTPParser :=
  if hp.contentLengthRead then (hp.contentLength, hp)
  else
    let hd := FindHeader hp cContentLength
    let hp1 :=
      if hd = GoB.nil then hp
      else
        match parseInt10 hd.data with
        | some v => { hp with contentLength := v }
        | none => hp
    let hp2 := { hp1 with contentLengthRead := true }
    (hp2.contentLength, hp2)

/-- A slice that aliases the byte range `[lo, hi)` of `input` and
denotes exactly those bytes. -/
def viewOf (input : List Nat) (b : GoB) : Prop :=
  ∃ lo hi, b = GoB.view (extract input lo hi) lo hi

/-- A freshly allocated slice (the folding path's `make`). -/
def isFreshB (b : GoB) : Prop :=
  ∃ d, b = GoB.fresh d

/-- Per-entry aliasing discipline of a parse over `input` starting from
a table `old`: an entry is untouched from `old`, or the zero header, or
its name is a view of `input` / the nil slice / the name of an `old`
entry (a fold can rewrite the value of a stale or zero slot), and its
value is a view of `input` or freshly allocated (folding). -/
def EntryP (input : List Nat) (old : List header) (en : header) : Prop :=
  en ∈ old ∨ en = zeroHeader ∨
    ((viewOf input en.Name ∨ en.Name = GoB.nil ∨ ∃ e0 ∈ old, en.Name = e0.Name) ∧
      (viewOf input en.Value ∨ isFreshB en.Value))

/-- Discipline for the running `headerName` of the scan. -/
def QName (input : List Nat) (old : List header) (nm : GoB) : Prop :=
  viewOf input nm ∨ nm = GoB.nil ∨ ∃ e0 ∈ old, nm = e0.Name

/-- The parser state carried by a version-scan outcome. -/
def VOutHP : VOut → HTTPParser
  | .proceed hp _ => hp
  | .ret hp _ _ => hp

/-- Concrete buffer "A B C" LF LF used to instantiate the aliasing
contract. -/
def c10Input : List Nat := bytes "A B C\n\n"

/-- The parser state `Parse` produces on `c10Input` from a fresh
parser. -/
def c10Parsed : HTTPParser :=
  { NewHTTPParser with
    Method := GoB.view (bytes "A") 0 1
    Path := GoB.view (bytes "B") 2 3
    Version := GoB.view (bytes "C") 4 5 }



theorem findPass_eq_find (p : header → Bool) (l : List header) :
    findPass p l = (l.find? p).map (fun hd => hd.Value) := by
  induction l with
  | nil => rfl
  | cons hd tl ih =>
    by_cases h : p hd <;> simp [findPass, List.find?, h, ih]

theorem getD_set_self (l : List header) (i : Nat) (a d : header)
    (h : i < l.length) : (l.set i a).getD i d = a := by
  induction l generalizing i with
  | nil => simp at h
  | cons hd tl ih =>
    cases i with
    | zero => rfl
    | succ n => simpa using ih n (by simpa using h)

theorem getD_take_append (l r : List header) (n i : Nat) (d : header)
    (hin : i < n) (hil : i < l.length) :
    ((l ++ r).take n).getD i d = l.getD i d := by
  induction l generalizing n i with
  | nil => simp at hil
  | cons hd tl ih =>
    cases n with
    | zero => omega
    | succ m =>
      cases i with
      | zero => rfl
      | succ j => simpa using ih m j (by omega) (by simpa using hil)

theorem addHeader_some (hp : HTTPParser) (h : Nat) (n v : GoB)
    (hh : h < hp.Headers.length) :
    ∃ hp', addHeader hp h n v = some hp' ∧
      hp'.Headers.getD h zeroHeader = ⟨n, v⟩ ∧
      hp'.contentLengthRead = hp.contentLengthRead ∧
      hp'.contentLength = hp.contentLength ∧
      hp'.Method = hp.Method ∧ hp'.Path = hp.Path ∧ hp'.Version = hp.Version := by
  unfold addHeader
  rw [if_pos hh]
  dsimp only
  split
  next hg =>
    refine ⟨_, rfl, ?_, rfl, rfl, rfl, rfl, rfl⟩
    dsimp only at hg ⊢
    have hlen : h < (hp.Headers.set h ⟨n, v⟩).length := by simpa using hh
    rw [getD_take_append _ _ _ _ _ (by omega) hlen]
    exact getD_set_self _ _ _ _ hh
  next hg =>
    exact ⟨_, rfl, getD_set_self _ _ _ _ hh, rfl, rfl, rfl, rfl, rfl⟩

theorem subLoop_skip (input : List Nat) (bs : List (List Nat)) (hp : HTTPParser)
    (b0 : Nat) (name : GoB) (h start i : Nat)
    (hb : ∀ b ∈ bs, name.data ≠ b ∧ b ≠ []) :
    subLoop input bs hp b0 name h start i = some hp := by
  induction bs with
  | nil => rfl
  | cons b rest ih =>
    obtain ⟨hne, hbe⟩ := hb b (List.mem_cons_self b rest)
    cases b with
    | nil => exact absurd rfl hbe
    | cons c cs =>
      show (if b0 = c ∧ name.data = c :: cs then _ else _) = _
      rw [if_neg (fun hc => hne hc.2)]
      exact ih fun b hbm => hb b (List.mem_cons_of_mem _ hbm)

/-- C3: with accept-all disabled, a completed header whose name is not in
the allow-set is not stored and causes no growth (the parser state is
returned unchanged by the completion step), while a header named exactly
"Content-Length" is always captured into the table and recognized
(`contentLengthRead` set) for every subscription policy, since the
parser `hp` here is arbitrary in both its `subscribeAllHeader` flag and
its allow-set. -/
theorem c3_subscription (input : List Nat) (hp : HTTPParser) (name : GoB)
    (h start i : Nat) :
    (hp.subscribeAllHeader = false → name.data ≠ cContentLength →
      name.data ≠ [] → (∀ b ∈ hp.subscribeHeader, name.data ≠ b ∧ b ≠ []) →
      completeHeader input hp name h start i = some hp) ∧
    (name.data = cContentLength → h < hp.Headers.length →
      ∃ hp', completeHeader input hp name h start i = some hp' ∧
        hp'.contentLengthRead = true ∧
        hp'.Headers.getD h zeroHeader = ⟨name, subv input start i⟩) := by
  constructor
  · intro hall hncl hnn hsub
    unfold completeHeader
    rw [if_neg hnn, if_neg (fun hc => hncl hc.2), if_neg (by rw [hall]; exact Bool.false_ne_true)]
    exact subLoop_skip input hp.subscribeHeader hp _ name h start i hsub
  · intro hcl hh
    unfold completeHeader
    rw [if_neg (by rw [hcl]; decide), if_pos ⟨by rw [hcl]; decide, hcl⟩]
    cases hpi : parseInt10 (extract input start i) with
    | none =>
      obtain ⟨hp', he, hgd, hr, -⟩ :=
        addHeader_some { hp with contentLengthRead := true } h name (subv input start i) hh
      exact ⟨hp', he, hr, hgd⟩
    | some v =>
      obtain ⟨hp', he, hgd, hr, -⟩ :=
        addHeader_some { hp with contentLength := v, contentLengthRead := true } h name
          (subv input start i) hh
      exact ⟨hp', he, hr, hgd⟩

/-- C3 witness: the first part at a parser subscribed only to "Host" with
a completed header named "X-Custom", the second at a fresh parser with a
completed header named exactly "Content-Length". -/
theorem c3_subscription_witness :
    (completeHeader (bytes "v") (SubscribeHeader (SubscribeAllHeader NewHTTPParser false) (bytes "Host"))
        (GoB.view (bytes "X-Custom") 0 8) 0 0 1 =
      some (SubscribeHeader (SubscribeAllHeader NewHTTPParser false) (bytes "Host"))) ∧
    ∃ hp', completeHeader (bytes "5") NewHTTPParser (GoB.view (bytes "Content-Length") 0 14) 0 0 1 =
        some hp' ∧ hp'.contentLengthRead = true ∧
        hp'.Headers.getD 0 zeroHeader = ⟨GoB.view (bytes "Content-Length") 0 14, subv (bytes "5") 0 1⟩ :=
  ⟨(c3_subscription (bytes "v") (SubscribeHeader (SubscribeAllHeader NewHTTPParser false) (bytes "Host"))
      (GoB.view (bytes "X-Custom") 0 8) 0 0 1).1 rfl (by decide) (by decide) (by decide),
   (c3_subscription (bytes "5") NewHTTPParser (GoB.view (bytes "Content-Length") 0 14) 0 0 1).2
      rfl (by decide)⟩

/-- C8: FindHeader is the two-pass scan the spec describes — the value of
the first stored header whose name matches byte-exactly, else the value
of the first matching case-insensitively, else the nil slice
(`FindHeaderSpec` is that contract written with `List.find?`) — and in
particular, after parsing a request whose only header is "Host: b.com",
FindHeader "host" finds the header stored under the name "Host". -/
theorem c8_two_pass :
    (∀ (hp : HTTPParser) (name : List Nat), FindHeader hp name = FindHeaderSpec hp name) ∧
    (parseGo NewHTTPParser (bytes "GET / HTTP/1.1\r\nHost: b.com\r\n\r\n")).map
        (fun r => FindHeader r.1 (bytes "host")) =
      some (GoB.view (bytes "b.com") 22 27) := by
  refine ⟨?_, rfl⟩
  intro hp name
  unfold FindHeader FindHeaderSpec
  rw [findPass_eq_find, findPass_eq_find]
  cases hp.Headers.find? (fun hd => hd.Name.data == name) with
  | some hd => rfl
  | none =>
    cases hp.Headers.find? (fun hd => equalFold hd.Name.data name) with
    | some hd => rfl
    | none => rfl

/-- C8 witness: the two-pass equation applied at a concrete parser state
and lookup name. -/
theorem c8_two_pass_witness :
    FindHeader NewHTTPParser (bytes "Host") = FindHeaderSpec NewHTTPParser (bytes "Host") :=
  c8_two_pass.1 NewHTTPParser (bytes "Host")
/-- C1: refuted on the code — an input buffer that is a strict prefix of a
complete request head (the terminating blank line is missing, and
appending CRLF yields a well-formed head) makes `Parse` panic instead of
returning `ErrMissingData`: with accept-all disabled and an empty
allow-set, the four skipped headers advance the running index `h` without
any growth of the four-slot table, so the always-captured Content-Length
header is written through `addHeader` at index 4 of a length-4 slice. -/
theorem c1_incomplete_panics :
    parseGo (SubscribeAllHeader NewHTTPParser false)
      (bytes "GET / HTTP/1.1\r\nA: 1\r\nB: 2\r\nC: 3\r\nD: 4\r\nContent-Length: 5\r\n") =
    none := by rfl

/-- C2: refuted on the code — `Reset`'s clearing loop ranges by value and
so never clears the table; after parsing a request with "Host: a.com",
calling `Reset`, and parsing a second request that has no headers at all,
`Host()` still returns the stale value "a.com" (a view into the previous
buffer at range 22..27) from the prior cycle, with both parses reporting
success. -/
theorem c2_reset_stale_host :
    ((parseGo NewHTTPParser (bytes "GET / HTTP/1.1\r\nHost: a.com\r\n\r\n")).bind fun r1 =>
      (parseGo (Reset r1.1) (bytes "GET / HTTP/1.1\r\n\r\n")).map fun r2 =>
        (r1.2.2, r2.2.2, (HostM r2.1).1)) =
    some (none, none, GoB.view (bytes "a.com") 22 27) := by rfl

/-- C4: parsing a head whose header section is "X: a" CRLF TAB "b" CRLF
CRLF yields exactly one stored header — name "X" (a view of the input),
value "a b" in a freshly allocated buffer — with the remaining table
slots untouched zero entries, and the returned offset just past the
blank line. -/
theorem c4_folding :
    (parseGo NewHTTPParser (bytes "GET / HTTP/1.1\r\nX: a\r\n\tb\r\n\r\n")).map
      (fun r => (r.1.Headers, r.2.1, r.2.2)) =
    some ([⟨GoB.view (bytes "X") 16 17, GoB.fresh (bytes "a b")⟩,
      zeroHeader, zeroHeader, zeroHeader], 28, none) := by rfl

/-- C5: parsing "POST / HTTP/1.1" CRLF "Content-Length: 5" CRLF CRLF
"hello" with a fresh parser succeeds with body offset 38 (the index of
the byte h), `ContentLength()` returns 5, the value was recognized
inline during the scan (`contentLengthRead` is already true when `Parse`
returns), and a subsequent `ContentLength()` call takes the cached path,
leaving the parser state unchanged rather than re-parsing. -/
theorem c5_content_length_inline :
    (parseGo NewHTTPParser (bytes "POST / HTTP/1.1\r\nContent-Length: 5\r\n\r\nhello")).map
      (fun r => (r.2.1, r.2.2, r.1.contentLengthRead, (ContentLengthM r.1).1,
        (ContentLengthM r.1).2 == r.1)) =
    some (38, none, true, 5, true) := by rfl

/-- C6: parsing "GET /x HTTP/1.1" CRLF "Host: a.com" CRLF CRLF with a
fresh parser succeeds (offset 32, no error) and yields Method "GET",
Path "/x", Version "HTTP/1.1", Host() "a.com", and ContentLength() -1,
the absent sentinel. -/
theorem c6_round_trip :
    (parseGo NewHTTPParser (bytes "GET /x HTTP/1.1\r\nHost: a.com\r\n\r\n")).map
      (fun r => (r.1.Method.data, r.1.Path.data, r.1.Version.data,
        ((HostM r.1).1).data, (ContentLengthM r.1).1, r.2.1, r.2.2)) =
    some (bytes "GET", bytes "/x", bytes "HTTP/1.1", bytes "a.com", -1, 32, none) := by rfl

/-- C7: a CR not immediately followed by LF is fatal: in the version
scan, once a CR was read (`readN` true), any next byte other than LF
returns `ErrBadProto`; in the header state machine, state
`eHeaderValueN` (entered from the CR ending a header-value or folded
line) likewise returns `ErrBadProto` on any byte other than LF; and in
particular parsing "GET / HTTP/1.1" CR "X" returns the BadProtocol
kind. -/
theorem c7_cr_without_lf :
    (∀ (input : List Nat) (f i version : Nat) (hp : HTTPParser),
      input.getD i 0 ≠ 10 →
      versionLoop input (f + 1) i version true hp = .ret hp 0 (some .BadProto)) ∧
    (∀ (input : List Nat) (f i start : Nat) (name : GoB) (h : Nat) (hp : HTTPParser),
      input.getD i 0 ≠ 10 →
      headerLoop input (f + 1) i .eHeaderValueN start name h hp =
        some (hp, 0, some .BadProto)) ∧
    (parseGo NewHTTPParser (bytes "GET / HTTP/1.1\rX")).map (fun r => (r.2.1, r.2.2)) =
      some (0, some PErr.BadProto) := by
  refine ⟨?_, ?_, rfl⟩
  · intro input f i version hp hne
    simp only [List.getD, List.get?_eq_getElem?] at hne
    simp [versionLoop, hne]
  · intro input f i start name h hp hne
    simp only [List.getD, List.get?_eq_getElem?] at hne
    simp [headerLoop, hne]

/-- C7 witness: both transitions at the one-byte buffer "X". -/
theorem c7_cr_without_lf_witness :
    versionLoop (bytes "X") 1 0 0 true NewHTTPParser =
      .ret NewHTTPParser 0 (some .BadProto) ∧
    headerLoop (bytes "X") 1 0 .eHeaderValueN 0 GoB.nil 0 NewHTTPParser =
      some (NewHTTPParser, 0, some .BadProto) :=
  ⟨c7_cr_without_lf.1 (bytes "X") 0 0 0 NewHTTPParser (by decide),
   c7_cr_without_lf.2.1 (bytes "X") 0 0 0 GoB.nil 0 NewHTTPParser (by decide)⟩

/-- C9: refuted on the code — `Parse` is not total: a folded continuation
line appearing before any header has completed reaches the fold path
with `h = 0`, where the Go code indexes `hp.Headers[h-1]`, an
out-of-range access (a run-time panic, `none` in this embedding). -/
theorem c9_fold_before_header_panics :
    parseGo NewHTTPParser (bytes "GET / HTTP/1.1\r\n a\n") = none := by rfl
theorem addHeader_entries (hp : HTTPParser) (h : Nat) (n v : GoB) (hp' : HTTPParser)
    (he : addHeader hp h n v = some hp') :
    hp'.Method = hp.Method ∧ hp'.Path = hp.Path ∧ hp'.Version = hp.Version ∧
    ∀ en ∈ hp'.Headers, en ∈ hp.Headers ∨ en = ⟨n, v⟩ ∨ en = zeroHeader := by
  unfold addHeader at he
  by_cases hh : h < hp.Headers.length
  · rw [if_pos hh] at he
    dsimp only at he
    split at he <;> injection he with he <;> subst he
    · refine ⟨rfl, rfl, rfl, ?_⟩
      intro en hen
      have h1 := List.take_subset _ _ hen
      rcases List.mem_append.1 h1 with h2 | h2
      · rcases List.mem_or_eq_of_mem_set h2 with h3 | h3
        · exact Or.inl h3
        · exact Or.inr (Or.inl h3)
      · exact Or.inr (Or.inr (List.eq_of_mem_replicate h2))
    · refine ⟨rfl, rfl, rfl, ?_⟩
      intro en hen
      rcases List.mem_or_eq_of_mem_set hen with h3 | h3
      · exact Or.inl h3
      · exact Or.inr (Or.inl h3)
  · rw [if_neg hh] at he
    exact absurd he (by simp)

theorem subLoop_entries (input : List Nat) (bs : List (List Nat)) (hp : HTTPParser)
    (b0 : Nat) (nm : GoB) (h start i : Nat) (hp' : HTTPParser)
    (he : subLoop input bs hp b0 nm h start i = some hp') :
    hp'.Method = hp.Method ∧ hp'.Path = hp.Path ∧ hp'.Version = hp.Version ∧
    ∀ en ∈ hp'.Headers, en ∈ hp.Headers ∨ en = ⟨nm, subv input start i⟩ ∨ en = zeroHeader := by
  induction bs with
  | nil =>
    simp only [subLoop, Option.some.injEq] at he
    subst he
    exact ⟨rfl, rfl, rfl, fun en hen => Or.inl hen⟩
  | cons b rest ih =>
    cases b with
    | nil => simp [subLoop] at he
    | cons c cs =>
      simp only [subLoop] at he
      split at he
      · exact addHeader_entries hp h nm (subv input start i) hp' he
      · exact ih he

theorem completeHeader_entries (input : List Nat) (hp : HTTPParser) (nm : GoB)
    (h start i : Nat) (hp' : HTTPParser)
    (he : completeHeader input hp nm h start i = some hp') :
    hp'.Method = hp.Method ∧ hp'.Path = hp.Path ∧ hp'.Version = hp.Version ∧
    ∀ en ∈ hp'.Headers, en ∈ hp.Headers ∨ en = ⟨nm, subv input start i⟩ ∨ en = zeroHeader := by
  unfold completeHeader at he
  split at he
  · simp at he
  · split at he
    · dsimp only at he
      split at he
      · obtain ⟨h1, h2, h3, h4⟩ := addHeader_entries _ _ _ _ _ he
        exact ⟨h1, h2, h3, h4⟩
      · obtain ⟨h1, h2, h3, h4⟩ := addHeader_entries _ _ _ _ _ he
        exact ⟨h1, h2, h3, h4⟩
    · split at he
      · exact addHeader_entries _ _ _ _ _ he
      · exact subLoop_entries _ _ _ _ _ _ _ _ _ he
theorem versionLoop_inv (input : List Nat) :
    ∀ (f i version : Nat) (readN : Bool) (hp : HTTPParser),
      (VOutHP (versionLoop input f i version readN hp)).Method = hp.Method ∧
      (VOutHP (versionLoop input f i version readN hp)).Path = hp.Path ∧
      (VOutHP (versionLoop input f i version readN hp)).Headers = hp.Headers ∧
      ((VOutHP (versionLoop input f i version readN hp)).Version = hp.Version ∨
        viewOf input (VOutHP (versionLoop input f i version readN hp)).Version) := by
  intro f
  induction f with
  | zero => intro i version readN hp; exact ⟨rfl, rfl, rfl, Or.inl rfl⟩
  | succ f ih =>
    intro i version readN hp
    cases readN with
    | false =>
      simp only [versionLoop]
      split
      · obtain ⟨h1, h2, h3, h4⟩ := ih (i + 1) version true
          { hp with Version := subv input version i }
        refine ⟨h1, h2, h3, Or.inr ?_⟩
        rcases h4 with h4 | h4
        · exact ⟨version, i, h4⟩
        · exact h4
      · split
        · exact ⟨rfl, rfl, rfl, Or.inr ⟨version, i, rfl⟩⟩
        · exact ih (i + 1) version false hp
    | true =>
      simp only [versionLoop]
      split
      · exact ⟨rfl, rfl, rfl, Or.inl rfl⟩
      · exact ⟨rfl, rfl, rfl, Or.inl rfl⟩

theorem headerLoop_inv (input : List Nat) (base : List header) :
    ∀ (f i : Nat) (st : HState) (start : Nat) (nm : GoB) (h : Nat)
      (hp hp' : HTTPParser) (n : Nat) (e : Option PErr),
      (∀ en ∈ hp.Headers, EntryP input base en) → QName input base nm →
      headerLoop input f i st start nm h hp = some (hp', n, e) →
      hp'.Method = hp.Method ∧ hp'.Path = hp.Path ∧ hp'.Version = hp.Version ∧
      ∀ en ∈ hp'.Headers, EntryP input base en := by
  intro f
  induction f with
  | zero =>
    intro i st start nm h hp hp' n e hH hQ he
    simp only [headerLoop, Option.some.injEq, Prod.mk.injEq] at he
    obtain ⟨rfl, -, -⟩ := he
    exact ⟨rfl, rfl, rfl, hH⟩
  | succ f ih =>
    intro i st start nm h hp hp' n e hH hQ he
    cases st
    case eNextHeader =>
      simp only [headerLoop] at he
      split at he
      · exact ih (i + 1) _ start nm h hp hp' n e hH hQ he
      · split at he
        · simp only [Option.some.injEq, Prod.mk.injEq] at he
          obtain ⟨rfl, -, -⟩ := he
          exact ⟨rfl, rfl, rfl, hH⟩
        · split at he
          · exact ih (i + 1) _ start nm h hp hp' n e hH hQ he
          · exact ih (i + 1) _ i nm h hp hp' n e hH hQ he
    case eNextHeaderN =>
      simp only [headerLoop] at he
      split at he <;>
        (simp only [Option.some.injEq, Prod.mk.injEq] at he
         obtain ⟨rfl, -, -⟩ := he
         exact ⟨rfl, rfl, rfl, hH⟩)
    case eHeader =>
      simp only [headerLoop] at he
      split at he
      · exact ih (i + 1) _ start (subv input start i) h hp hp' n e hH
          (Or.inl ⟨start, i, rfl⟩) he
      · exact ih (i + 1) _ start nm h hp hp' n e hH hQ he
    case eHeaderValueSpace =>
      simp only [headerLoop] at he
      split at he
      · exact ih (i + 1) _ start nm h hp hp' n e hH hQ he
      · exact ih (i + 1) _ i nm h hp hp' n e hH hQ he
    case eHeaderValue =>
      simp only [headerLoop] at he
      split at he
      · split at he
        · simp at he
        · rename_i hp1 heq
          obtain ⟨hm1, hq1, hv1, hen1⟩ := completeHeader_entries input hp nm h start i hp1 heq
          have hH1 : ∀ en ∈ hp1.Headers, EntryP input base en := by
            intro en hen
            rcases hen1 en hen with h1 | h1 | h1
            · exact hH en h1
            · subst h1
              exact Or.inr (Or.inr ⟨hQ, Or.inl ⟨start, i, rfl⟩⟩)
            · exact Or.inr (Or.inl h1)
          obtain ⟨g1, g2, g3, g4⟩ := ih (i + 1) _ start nm (h + 1) hp1 hp' n e hH1 hQ he
          exact ⟨g1.trans hm1, g2.trans hq1, g3.trans hv1, g4⟩
      · exact ih (i + 1) _ start nm h hp hp' n e hH hQ he
    case eHeaderValueN =>
      simp only [headerLoop] at he
      split at he
      · simp only [Option.some.injEq, Prod.mk.injEq] at he
        obtain ⟨rfl, -, -⟩ := he
        exact ⟨rfl, rfl, rfl, hH⟩
      · exact ih (i + 1) _ start nm h hp hp' n e hH hQ he
    case eMLHeaderStart =>
      simp only [headerLoop] at he
      split at he
      · exact ih (i + 1) _ start nm h hp hp' n e hH hQ he
      · exact ih (i + 1) _ i nm h hp hp' n e hH hQ he
    case eMLHeaderValue =>
      simp only [headerLoop] at he
      split at he
      · split at he
        · simp at he
        · split at he
          · rename_i hne hb
            set cur := hp.Headers.get ⟨h - 1, hb⟩ with hcur
            have hcmem : cur ∈ hp.Headers := List.get_mem hp.Headers (h - 1) hb
            have hH2 : ∀ en ∈ (hp.Headers.set (h - 1)
                { cur with Value := GoB.fresh (cur.Value.data ++ [32] ++ extract input start i) }),
                EntryP input base en := by
              intro en hen
              rcases List.mem_or_eq_of_mem_set hen with h1 | h1
              · exact hH en h1
              · subst h1
                rcases hH cur hcmem with hc | hc | hc
                · exact Or.inr (Or.inr ⟨Or.inr (Or.inr ⟨cur, hc, rfl⟩), Or.inr ⟨_, rfl⟩⟩)
                · exact Or.inr (Or.inr ⟨Or.inr (Or.inl (by rw [hc]; rfl)), Or.inr ⟨_, rfl⟩⟩)
                · exact Or.inr (Or.inr ⟨hc.1, Or.inr ⟨_, rfl⟩⟩)
            obtain ⟨g1, g2, g3, g4⟩ := ih (i + 1) _ start nm h _ hp' n e hH2 hQ he
            exact ⟨g1, g2, g3, g4⟩
          · simp at he
      · exact ih (i + 1) _ start nm h hp hp' n e hH hQ he
/-- C10: the aliasing contract of `Parse` — the embedding takes the input
buffer as an immutable value, mirroring the source, which contains no
write to `input`; whenever `Parse` returns (no panic), Method, Path and
Version are each either untouched or views aliasing the input buffer,
and every entry of the header table is either an entry that was already
there before the call, a zero entry, or an entry whose name is a view of
the input (or the nil name / the name of a pre-existing entry, when a
fold rewrote a stale or zero slot) and whose value is a view of the
input or — only for folded values — a freshly allocated buffer. -/
theorem c10_aliasing (input : List Nat) (hp hp' : HTTPParser) (n : Nat)
    (e : Option PErr) (he : parseGo hp input = some (hp', n, e)) :
    (hp'.Method = hp.Method ∨ viewOf input hp'.Method) ∧
    (hp'.Path = hp.Path ∨ viewOf input hp'.Path) ∧
    (hp'.Version = hp.Version ∨ viewOf input hp'.Version) ∧
    ∀ en ∈ hp'.Headers, EntryP input hp.Headers en := by
  unfold parseGo at he
  dsimp only at he
  cases hm : scanSpTab input input.length 0 with
  | none =>
    rw [hm] at he
    dsimp only at he
    simp only [Option.some.injEq, Prod.mk.injEq] at he
    obtain ⟨rfl, -, -⟩ := he
    exact ⟨Or.inl rfl, Or.inl rfl, Or.inl rfl, fun en hen => Or.inl hen⟩
  | some m =>
    rw [hm] at he
    dsimp only at he
    cases hq : scanSpTab input (input.length - (m + 1)) (m + 1) with
    | none =>
      rw [hq] at he
      dsimp only at he
      simp only [Option.some.injEq, Prod.mk.injEq] at he
      obtain ⟨rfl, -, -⟩ := he
      exact ⟨Or.inr ⟨0, m, rfl⟩, Or.inl rfl, Or.inl rfl, fun en hen => Or.inl hen⟩
    | some p =>
      rw [hq] at he
      dsimp only at he
      have hvinv := versionLoop_inv input (input.length - (p + 1)) (p + 1) (p + 1) false
        { hp with Method := subv input 0 m, Path := subv input (m + 1) p }
      cases hv : versionLoop input (input.length - (p + 1)) (p + 1) (p + 1) false
          { hp with Method := subv input 0 m, Path := subv input (m + 1) p } with
      | ret hp3 n3 e3 =>
        rw [hv] at he hvinv
        dsimp only at he
        simp only [Option.some.injEq, Prod.mk.injEq] at he
        obtain ⟨rfl, -, -⟩ := he
        obtain ⟨h1, h2, h3, h4⟩ := hvinv
        refine ⟨Or.inr ⟨0, m, h1⟩, Or.inr ⟨m + 1, p, h2⟩, ?_, ?_⟩
        · rcases h4 with h4 | h4
          · exact Or.inl h4
          · exact Or.inr h4
        · intro en hen
          rw [VOutHP] at h3
          rw [h3] at hen
          exact Or.inl hen
      | proceed hp3 headers =>
        rw [hv] at he hvinv
        dsimp only at he
        obtain ⟨h1, h2, h3, h4⟩ := hvinv
        rw [VOutHP] at h1 h2 h3 h4
        have hH : ∀ en ∈ hp3.Headers, EntryP input hp.Headers en := by
          intro en hen
          rw [h3] at hen
          exact Or.inl hen
        obtain ⟨g1, g2, g3, g4⟩ := headerLoop_inv input hp.Headers
          (input.length - headers) headers .eNextHeader headers GoB.nil 0 hp3 hp' n e
          hH (Or.inr (Or.inl rfl)) he
        refine ⟨Or.inr ⟨0, m, g1.trans h1⟩, Or.inr ⟨m + 1, p, g2.trans h2⟩, ?_, g4⟩
        rcases h4 with h4 | h4
        · exact Or.inl (g3.trans h4)
        · exact Or.inr (g3 ▸ h4)

/-- C10 witness: the aliasing contract applied to the concrete parse of
"A B C" LF LF from a fresh parser. -/
theorem c10_aliasing_witness :
    (c10Parsed.Method = NewHTTPParser.Method ∨ viewOf c10Input c10Parsed.Method) ∧
    (c10Parsed.Path = NewHTTPParser.Path ∨ viewOf c10Input c10Parsed.Path) ∧
    (c10Parsed.Version = NewHTTPParser.Version ∨ viewOf c10Input c10Parsed.Version) ∧
    ∀ en ∈ c10Parsed.Headers, EntryP c10Input NewHTTPParser.Headers en :=
  c10_aliasing c10Input NewHTTPParser c10Parsed 7 none (by rfl)
end Wildcat
